import Mathlib

/-!
Shallow embedding of `src/app.py` (mcp-search-engine).

The program is a small FastAPI service.  The request-time logic embedded
here, read off the source:

* `relevance` / `recommend_mcp` — the `/recommend` handler (app.py:61-78):
  score each static tool against a query, sort descending (Python's
  `sorted(..., key=relevance, reverse=True)` — a stable sort) and slice
  the first `top_k` entries with Python slice semantics.
* `get_all_mcp_sources` (app.py:38-56) — merge the static catalog with a
  proxy-fetched list into a `dict` keyed by tool name; each static tool
  dict is mutated in place (`tool["source"] = "static"`), so the function
  is modelled as returning both the new state of the shared static list
  and the merged value list.
* `quick_relevance` / the top-25 pre-filter of `/recommend-ai`
  (app.py:86-98).
* `fetch_mcp_tools` — the `/list_tools` handler (app.py:134-143), modelled
  over the three possible proxy outcomes (200 with a parsed body, non-200,
  exception — a body that fails to parse raises inside the `try` and is an
  exception outcome).

Machine-level conventions of the embedding: Python `float` scores are
modelled as `ℚ` (every constant in the program is exactly representable and
no rounding is at issue at these magnitudes); Python strings are Lean
`String`s, `a in b` is `pyIn a b` (contiguous-substring test), `str.lower`
is per-character ASCII lowering (`pyLower`), and `str.split()` is
splitting on whitespace runs dropping empty pieces (`pySplitWs`).  A JSON
field read through `dict.get(k, default)` is modelled as a total field
holding the default when the key is absent (so an absent `name` is the
field `name = ""` in `relevance`); the `source` key, which only the
aggregator writes, is an `Option String`.
-/

unseal Rat.add Rat.mul Rat.sub Rat.inv

namespace McpSearch

/-- Prefix test on character lists (`l₂` starts with `l₁`), written out so
that concrete instances reduce in the kernel. -/
def isPrefAt : List Char → List Char → Bool
  | [], _ => true
  | _ :: _, [] => false
  | a :: as, b :: bs => a == b && isPrefAt as bs

/-- Contiguous-substring test on character lists: Python's `n in h` for
strings. -/
def hasSub (n : List Char) : List Char → Bool
  | [] => n.isEmpty
  | c :: t => isPrefAt n (c :: t) || hasSub n t

/-- Python's `a in b` on strings: `a` occurs contiguously in `b`. -/
def pyIn (a b : String) : Bool := hasSub a.data b.data

/-- Python's `str.lower` (per-character lowering; ASCII range, which is
what the catalog and queries use). -/
def pyLower (s : String) : String := String.mk (s.data.map Char.toLower)

/-- Helper for `pySplitWs`: accumulate the current token while walking the
characters. -/
def pySplitWsAux (cur : List Char) : List Char → List String
  | [] => if cur.isEmpty then [] else [String.mk cur]
  | c :: rest =>
    if c.isWhitespace then
      (if cur.isEmpty then pySplitWsAux [] rest
       else String.mk cur :: pySplitWsAux [] rest)
    else pySplitWsAux (cur ++ [c]) rest

/-- Python's `str.split()` with no argument: split on whitespace runs,
dropping empty pieces. -/
def pySplitWs (s : String) : List String := pySplitWsAux [] s.data

/-- The one entity of the program: a tool descriptor as the handlers read
it.  `mcprank_score` is ℚ for Python's float; `source` is the key the
aggregator writes (`none` models a JSON object without the key). -/
structure Tool where
  name : String
  description : String
  tags : List String
  mcprank_score : ℚ
  source : Option String
  deriving DecidableEq, Repr

/-- The scoring closure of `/recommend` (app.py:63-75), line for line:
`+3` for the lowered query in the lowered description, `+2` if some
whitespace token of the lowered joined tag string occurs in the lowered
query, `+5` if the (original-case) name occurs in the (original-case)
query, plus `mcprank_score * 5`. -/
def relevance (query : String) (mcp : Tool) : ℚ :=
  let desc := pyLower mcp.description
  let tags := pyLower (String.intercalate " " mcp.tags)
  let score : ℚ := 0
  let score := if pyIn (pyLower query) desc then score + 3 else score
  let score := if (pySplitWs tags).any (fun tag => pyIn tag (pyLower query)) then score + 2
    else score
  let score := if pyIn mcp.name query then score + 5 else score
  score + mcp.mcprank_score * 5

/-- The pre-filter scoring closure of `/recommend-ai` (app.py:86-95):
`+2` for the lowered task in the lowered description, `+1` if some tag
token occurs in the lowered task, plus `mcprank_score * 2`. -/
def quick_relevance (task : String) (tool : Tool) : ℚ :=
  let desc := pyLower tool.description
  let tags := pyLower (String.intercalate " " tool.tags)
  let score : ℚ := 0
  let score := if pyIn (pyLower task) desc then score + 2 else score
  let score := if (pySplitWs tags).any (fun tag => pyIn tag (pyLower task)) then score + 1
    else score
  score + tool.mcprank_score * 2

/-- Index-tag a list (Python's implicit original positions before a stable
sort). -/
def withIdxFrom {α : Type} (n : ℕ) : List α → List (ℕ × α)
  | [] => []
  | t :: ts => (n, t) :: withIdxFrom (n + 1) ts

/-- `withIdx l` pairs each element with its position. -/
def withIdx {α : Type} (l : List α) : List (ℕ × α) := withIdxFrom 0 l

/-- The total order realising Python's `sorted(..., key=f, reverse=True)`:
higher score first, and on score ties the smaller original index first.
A stable descending sort is exactly the (unique) sort of the index-tagged
list by this order. -/
def keyLE (f : Tool → ℚ) (a b : ℕ × Tool) : Prop :=
  f b.2 < f a.2 ∨ (f a.2 = f b.2 ∧ a.1 ≤ b.1)

instance keyLE.decidableRel (f : Tool → ℚ) : DecidableRel (keyLE f) := fun a b =>
  inferInstanceAs (Decidable (_ ∨ _))

instance keyLE.isTotal (f : Tool → ℚ) : IsTotal (ℕ × Tool) (keyLE f) where
  total a b := by
    rcases lt_trichotomy (f a.2) (f b.2) with h | h | h
    · exact Or.inr (Or.inl h)
    · rcases Nat.le_total a.1 b.1 with hn | hn
      · exact Or.inl (Or.inr ⟨h, hn⟩)
      · exact Or.inr (Or.inr ⟨h.symm, hn⟩)
    · exact Or.inl (Or.inl h)

instance keyLE.isTrans (f : Tool → ℚ) : IsTrans (ℕ × Tool) (keyLE f) where
  trans a b c hab hbc := by
    rcases hab with h1 | ⟨e1, n1⟩ <;> rcases hbc with h2 | ⟨e2, n2⟩
    · exact Or.inl (h2.trans h1)
    · exact Or.inl (e2 ▸ h1)
    · exact Or.inl (e1 ▸ h2)
    · exact Or.inr ⟨e1.trans e2, n1.trans n2⟩

/-- Python's `sorted(l, key=f, reverse=True)` on an index-tagged list:
the stable descending sort, realised as the sort by the total order
`keyLE f`. -/
def pySortDesc (f : Tool → ℚ) (l : List Tool) : List (ℕ × Tool) :=
  List.insertionSort (keyLE f) (withIdx l)

/-- `sorted(ranked_mcps, key=relevance, reverse=True)` of app.py:77, with
the index tags dropped again. -/
def rankedList (query : String) (catalog : List Tool) : List Tool :=
  (pySortDesc (relevance query) catalog).map Prod.snd

/-- Python's `l[:k]` for an `int` k: the first `k` entries when `k ≥ 0`,
and all but the last `-k` entries when `k < 0`. -/
def pySliceTo {α : Type} (k : ℤ) (l : List α) : List α :=
  if 0 ≤ k then l.take k.toNat else l.take (l.length - (-k).toNat)

/-- The `/recommend` handler (app.py:61-78) on a catalog state: rank the
static catalog by `relevance` and slice the first `top_k`. -/
def recommend_mcp (query : String) (top_k : ℤ) (ranked_mcps : List Tool) : List Tool :=
  pySliceTo top_k (rankedList query ranked_mcps)

/-- The FastAPI default for `top_k` (`Query(5)` at app.py:62). -/
def recommend_top_k_default : ℤ := 5

/-- The outcome of the aggregator's proxy fetch (app.py:47-54): either a
parsed 200-response list, or any failure (network error, non-200 status —
which just skips the `if` — or a body whose JSON parse raises, caught by
the blanket `except`). -/
inductive ProxyResult : Type where
  | ok : List Tool → ProxyResult
  | failure : ProxyResult

/-- `tool["source"] = s`: the one field the aggregator writes. -/
def tagSource (s : String) (t : Tool) : Tool := { t with source := some s }

/-- One Python `dict` assignment `m[k] = v` for an insertion-ordered dict:
overwriting an existing key keeps its position, a new key goes to the
end. -/
def insertTool (m : List (String × Tool)) (k : String) (v : Tool) : List (String × Tool) :=
  if m.any (fun kv => kv.1 == k) then
    m.map (fun kv => if kv.1 == k then (k, v) else kv)
  else m ++ [(k, v)]

/-- The aggregator's loop body over a list of tools: `all_tools[tool["name"]] = tool`. -/
def insertAll (m : List (String × Tool)) (ts : List Tool) : List (String × Tool) :=
  ts.foldl (fun acc t => insertTool acc t.name t) m

/-- `get_all_mcp_sources` (app.py:38-56).  The static loop mutates each
shared static tool dict in place (`tool["source"] = "static"`), so the
model returns the new state of `ranked_mcps` alongside the merged value
list `list(all_tools.values())`. -/
def get_all_mcp_sources (ranked_mcps : List Tool) (proxy : ProxyResult) :
    List Tool × List Tool :=
  let staticTagged := ranked_mcps.map (tagSource "static")
  let m0 := insertAll [] staticTagged
  match proxy with
  | .failure => (staticTagged, m0.map Prod.snd)
  | .ok ps => (staticTagged, (insertAll m0 (ps.map (tagSource "proxy"))).map Prod.snd)

/-- The `/recommend-ai` pre-filter (app.py:97-98): stable-sort the
aggregated tools by `quick_relevance` descending and trim to the top
25. -/
def filtered_tools (task : String) (all_tools : List Tool) : List Tool :=
  ((pySortDesc (quick_relevance task) all_tools).map Prod.snd).take 25

/-- What the proxy can do to the `/list_tools` handler: a 200 response
whose body parses to a list, a non-200 response (status code and body
text), or an exception whose string representation is `msg` (network
errors, and 200-responses whose body fails to parse — `res.json()` raises
inside the `try`). -/
inductive ProxyHttp : Type where
  | ok200 : List Tool → ProxyHttp
  | badStatus : ℕ → String → ProxyHttp
  | exc : String → ProxyHttp

/-- What `/list_tools` returns: the parsed body, or `{"error": msg}`. -/
inductive FetchResult : Type where
  | payload : List Tool → FetchResult
  | error : String → FetchResult
  deriving DecidableEq

/-- The `/list_tools` handler `fetch_mcp_tools` (app.py:134-143) over the
possible proxy outcomes; it always returns (never raises). -/
def fetch_mcp_tools : ProxyHttp → FetchResult
  | .ok200 body => .payload body
  | .badStatus code text => .error ("Proxy returned " ++ toString code ++ ": " ++ text)
  | .exc msg => .error msg

/-! ### Substring machinery: `pyIn` agrees with list-infix containment -/

theorem isPrefAt_iff (n h : List Char) : isPrefAt n h = true ↔ n <+: h := by
  induction n generalizing h with
  | nil => simpa [isPrefAt] using List.nil_prefix
  | cons a as ih =>
    cases h with
    | nil => simp [isPrefAt]
    | cons b bs => simp [isPrefAt, List.cons_prefix_cons, ih, and_comm]

theorem hasSub_iff (n h : List Char) : hasSub n h = true ↔ n <:+: h := by
  induction h with
  | nil => cases n <;> simp [hasSub, List.infix_nil]
  | cons c t ih => simp [hasSub, isPrefAt_iff, ih, List.infix_cons_iff]

theorem hasSub_nil_left (h : List Char) : hasSub [] h = true := by
  cases h <;> simp [hasSub, isPrefAt]

/-- Python's `"" in s` is `True` for every string `s`. -/
theorem pyIn_empty_left (b : String) : pyIn "" b = true := hasSub_nil_left b.data

/-- Python's `a in b` holds whenever `b` is built around `a` by
concatenation. -/
theorem pyIn_of_concat (a x y : String) : pyIn a (x ++ a ++ y) = true := by
  unfold pyIn
  rw [hasSub_iff, String.data_append, String.data_append]
  exact List.infix_append _ _ _

/-! ### Index-tagging lemmas -/

theorem length_withIdxFrom {α : Type} (n : ℕ) (l : List α) :
    (withIdxFrom n l).length = l.length := by
  induction l generalizing n with
  | nil => rfl
  | cons t ts ih => simp [withIdxFrom, ih]

theorem map_snd_withIdxFrom {α : Type} (n : ℕ) (l : List α) :
    (withIdxFrom n l).map Prod.snd = l := by
  induction l generalizing n with
  | nil => rfl
  | cons t ts ih => simp [withIdxFrom, ih]

theorem map_snd_withIdx {α : Type} (l : List α) : (withIdx l).map Prod.snd = l :=
  map_snd_withIdxFrom 0 l

theorem get_withIdxFrom {α : Type} (n : ℕ) (l : List α) (i : ℕ)
    (h1 : i < (withIdxFrom n l).length) (h2 : i < l.length) :
    (withIdxFrom n l).get ⟨i, h1⟩ = (n + i, l.get ⟨i, h2⟩) := by
  induction l generalizing n i with
  | nil => simp at h2
  | cons t ts ih =>
    cases i with
    | zero => simp [withIdxFrom]
    | succ j =>
      have hj1 : j < (withIdxFrom (n + 1) ts).length := by
        simpa [withIdxFrom, length_withIdxFrom] using h1
      have hj2 : j < ts.length := by simpa using h2
      have := ih (n + 1) j hj1 hj2
      simp only [withIdxFrom, List.get_cons_succ, this, List.get_cons_succ]
      congr 1
      omega

theorem fst_ge_of_mem_withIdxFrom {α : Type} (n : ℕ) (l : List α) (p : ℕ × α)
    (hp : p ∈ withIdxFrom n l) : n ≤ p.1 := by
  induction l generalizing n with
  | nil => simp [withIdxFrom] at hp
  | cons t ts ih =>
    simp only [withIdxFrom, List.mem_cons] at hp
    rcases hp with rfl | hp
    · exact le_refl n
    · exact Nat.le_of_succ_le (ih (n + 1) hp)

theorem nodup_fst_withIdxFrom {α : Type} (n : ℕ) (l : List α) :
    ((withIdxFrom n l).map Prod.fst).Nodup := by
  induction l generalizing n with
  | nil => simp [withIdxFrom]
  | cons t ts ih =>
    simp only [withIdxFrom, List.map_cons, List.nodup_cons]
    refine ⟨?_, ih (n + 1)⟩
    intro hmem
    obtain ⟨p, hp, hfst⟩ := List.mem_map.mp hmem
    have := fst_ge_of_mem_withIdxFrom (n + 1) ts p hp
    omega

theorem mem_withIdx_of_get {α : Type} (l : List α) (i : ℕ) (h : i < l.length) :
    (i, l.get ⟨i, h⟩) ∈ withIdx l := by
  have h1 : i < (withIdxFrom 0 l).length := by
    rw [length_withIdxFrom]
    exact h
  rw [List.mem_iff_get]
  exact ⟨⟨i, h1⟩, by simpa using get_withIdxFrom 0 l i h1 h⟩

/-! ### The stable descending sort: order-theoretic facts -/

/-- The strict part of `keyLE`: strictly better score, or equal score and
strictly earlier original position. -/
def keyLT (f : Tool → ℚ) (a b : ℕ × Tool) : Prop :=
  f b.2 < f a.2 ∨ (f a.2 = f b.2 ∧ a.1 < b.1)

theorem perm_pySortDesc (f : Tool → ℚ) (l : List Tool) :
    (pySortDesc f l).Perm (withIdx l) :=
  List.perm_insertionSort _ _

theorem sorted_pySortDesc (f : Tool → ℚ) (l : List Tool) :
    List.Sorted (keyLE f) (pySortDesc f l) :=
  List.sorted_insertionSort _ _

theorem length_pySortDesc (f : Tool → ℚ) (l : List Tool) :
    (pySortDesc f l).length = l.length := by
  rw [(perm_pySortDesc f l).length_eq]
  exact length_withIdxFrom 0 l

theorem nodup_fst_pySortDesc (f : Tool → ℚ) (l : List Tool) :
    ((pySortDesc f l).map Prod.fst).Nodup :=
  ((perm_pySortDesc f l).map Prod.fst).nodup_iff.mpr (nodup_fst_withIdxFrom 0 l)

theorem pairwise_fst_ne_pySortDesc (f : Tool → ℚ) (l : List Tool) :
    (pySortDesc f l).Pairwise (fun a b => a.1 ≠ b.1) := by
  have h := nodup_fst_pySortDesc f l
  rwa [List.Nodup, List.pairwise_map] at h

/-- The sorted list is pairwise-strict for the key order: there are no
genuine ties once the original index is part of the key. -/
theorem pairwise_keyLT_pySortDesc (f : Tool → ℚ) (l : List Tool) :
    (pySortDesc f l).Pairwise (keyLT f) := by
  refine ((sorted_pySortDesc f l).and (pairwise_fst_ne_pySortDesc f l)).imp ?_
  rintro a b ⟨hle, hne⟩
  rcases hle with h | ⟨he, hn⟩
  · exact Or.inl h
  · exact Or.inr ⟨he, Nat.lt_of_le_of_ne hn hne⟩

/-- `a` stands strictly before `b` in the list `L`. -/
def Precedes (L : List (ℕ × Tool)) (a b : ℕ × Tool) : Prop :=
  ∃ i j : Fin L.length, i.1 < j.1 ∧ L.get i = a ∧ L.get j = b

theorem keyLT_of_precedes (f : Tool → ℚ) (L : List (ℕ × Tool))
    (hp : L.Pairwise (keyLT f)) (a b : ℕ × Tool) (h : Precedes L a b) :
    keyLT f a b := by
  obtain ⟨i, j, hij, ha, hb⟩ := h
  have := List.pairwise_iff_get.mp hp i j hij
  rwa [ha, hb] at this

theorem precedes_of_keyLT (f : Tool → ℚ) (L : List (ℕ × Tool))
    (hsort : List.Sorted (keyLE f) L) (a b : ℕ × Tool)
    (ha : a ∈ L) (hb : b ∈ L) (h : keyLT f a b) : Precedes L a b := by
  obtain ⟨i, hi⟩ := List.mem_iff_get.mp ha
  obtain ⟨j, hj⟩ := List.mem_iff_get.mp hb
  rcases lt_trichotomy i.1 j.1 with hlt | heq | hgt
  · exact ⟨i, j, hlt, hi, hj⟩
  · exfalso
    have hab : a = b := by rw [← hi, ← hj]; congr 1; exact Fin.ext heq
    subst hab
    rcases h with h | ⟨_, h⟩
    · exact lt_irrefl _ h
    · exact Nat.lt_irrefl _ h
  · exfalso
    have hba : keyLE f b a := by
      have := List.pairwise_iff_get.mp hsort j i hgt
      rwa [hi, hj] at this
    rcases h with h1 | ⟨h1, h2⟩ <;> rcases hba with h3 | ⟨h3, h4⟩
    · exact absurd (h1.trans h3) (lt_irrefl _)
    · rw [h3] at h1; exact lt_irrefl _ h1
    · rw [h1] at h3; exact lt_irrefl _ h3
    · omega

/-! ### Python dict semantics: keys, insertion, and the aggregator -/

/-- The key sequence of the modelled dict. -/
def keys (m : List (String × Tool)) : List String := m.map Prod.fst

theorem any_key_iff (m : List (String × Tool)) (k : String) :
    (m.any (fun kv => kv.1 == k)) = true ↔ k ∈ keys m := by
  rw [List.any_eq_true]
  constructor
  · rintro ⟨kv, hm, hb⟩
    have hk : kv.1 = k := by simpa using hb
    exact hk ▸ List.mem_map.mpr ⟨kv, hm, rfl⟩
  · intro hk
    obtain ⟨kv, hm, hfst⟩ := List.mem_map.mp hk
    exact ⟨kv, hm, by simp [hfst]⟩

theorem keys_insertTool_of_mem (m : List (String × Tool)) (k : String) (v : Tool)
    (h : k ∈ keys m) : keys (insertTool m k v) = keys m := by
  unfold insertTool
  rw [if_pos ((any_key_iff m k).mpr h)]
  unfold keys
  rw [List.map_map]
  refine List.map_congr_left ?_
  intro kv _
  by_cases hk : kv.1 = k
  · simp [Function.comp, hk]
  · simp [Function.comp, hk]

theorem keys_insertTool_of_not_mem (m : List (String × Tool)) (k : String) (v : Tool)
    (h : k ∉ keys m) : keys (insertTool m k v) = keys m ++ [k] := by
  unfold insertTool
  rw [if_neg (by simpa using fun hc => h ((any_key_iff m k).mp hc))]
  simp [keys]

theorem mem_keys_insertTool_self (m : List (String × Tool)) (k : String) (v : Tool) :
    k ∈ keys (insertTool m k v) := by
  by_cases h : k ∈ keys m
  · rw [keys_insertTool_of_mem m k v h]; exact h
  · rw [keys_insertTool_of_not_mem m k v h]; simp

theorem mem_keys_insertTool_mono (m : List (String × Tool)) (k a : String) (v : Tool)
    (h : a ∈ keys m) : a ∈ keys (insertTool m k v) := by
  by_cases hk : k ∈ keys m
  · rwa [keys_insertTool_of_mem m k v hk]
  · rw [keys_insertTool_of_not_mem m k v hk]; exact List.mem_append_left _ h

theorem nodup_keys_insertTool (m : List (String × Tool)) (k : String) (v : Tool)
    (h : (keys m).Nodup) : (keys (insertTool m k v)).Nodup := by
  by_cases hk : k ∈ keys m
  · rwa [keys_insertTool_of_mem m k v hk]
  · rw [keys_insertTool_of_not_mem m k v hk]
    simp [List.nodup_append, h, hk]

/-- Every stored value's `name` is its key (the aggregator always inserts
under `tool["name"]`). -/
def NamesKeys (m : List (String × Tool)) : Prop := ∀ kv ∈ m, Tool.name kv.2 = kv.1

theorem namesKeys_insertTool (m : List (String × Tool)) (k : String) (v : Tool)
    (h : NamesKeys m) (hv : v.name = k) : NamesKeys (insertTool m k v) := by
  unfold insertTool
  by_cases hm : (m.any (fun kv => kv.1 == k)) = true
  · rw [if_pos hm]
    intro kv hkv
    obtain ⟨kv0, hkv0, rfl⟩ := List.mem_map.mp hkv
    by_cases hk : kv0.1 = k
    · simp [hk, hv]
    · simpa [hk] using h kv0 hkv0
  · rw [if_neg hm]
    intro kv hkv
    rcases List.mem_append.mp hkv with hkv | hkv
    · exact h kv hkv
    · simp only [List.mem_singleton] at hkv
      subst hkv
      exact hv

theorem nodup_keys_insertAll (m : List (String × Tool)) (ts : List Tool)
    (h : (keys m).Nodup) : (keys (insertAll m ts)).Nodup := by
  induction ts generalizing m with
  | nil => exact h
  | cons t rest ih => exact ih _ (nodup_keys_insertTool m t.name t h)

theorem namesKeys_insertAll (m : List (String × Tool)) (ts : List Tool)
    (h : NamesKeys m) : NamesKeys (insertAll m ts) := by
  induction ts generalizing m with
  | nil => exact h
  | cons t rest ih => exact ih _ (namesKeys_insertTool m t.name t h rfl)

theorem mem_keys_insertAll_mono (m : List (String × Tool)) (ts : List Tool) (a : String)
    (h : a ∈ keys m) : a ∈ keys (insertAll m ts) := by
  induction ts generalizing m with
  | nil => exact h
  | cons t rest ih => exact ih _ (mem_keys_insertTool_mono m t.name a t h)

theorem mem_keys_insertAll_of_mem (ts : List Tool) (t : Tool) (h : t ∈ ts) :
    ∀ m, t.name ∈ keys (insertAll m ts) := by
  induction ts with
  | nil => simp at h
  | cons u rest ih =>
    intro m
    rcases List.mem_cons.mp h with rfl | h2
    · exact mem_keys_insertAll_mono _ rest t.name (mem_keys_insertTool_self m t.name t)
    · exact ih h2 _

/-- The names of the merged value list are exactly the dict's keys. -/
theorem names_values_eq_keys (m : List (String × Tool)) (h : NamesKeys m) :
    (m.map Prod.snd).map Tool.name = keys m := by
  unfold keys
  rw [List.map_map]
  exact List.map_congr_left h

/-- The value the modelled dict holds at key `k` (first — hence, under
`Nodup` keys, only — entry with that key). -/
def valueAt (m : List (String × Tool)) (k : String) : Option Tool :=
  (m.find? (fun kv => kv.1 == k)).map Prod.snd

theorem valueAt_insertTool_self (m : List (String × Tool)) (k : String) (v : Tool) :
    valueAt (insertTool m k v) k = some v := by
  unfold insertTool valueAt
  by_cases hm : (m.any (fun kv => kv.1 == k)) = true
  · rw [if_pos hm]
    induction m with
    | nil => simp at hm
    | cons kv0 rest ih =>
      by_cases hk : kv0.1 = k
      · simp [hk]
      · have hrest : (rest.any (fun kv => kv.1 == k)) = true := by
          simpa [hk] using hm
        simpa [hk] using ih hrest
  · rw [if_neg hm]
    have hnone : m.find? (fun kv => kv.1 == k) = none := by
      rw [List.find?_eq_none]
      intro kv hkv hp
      exact hm (List.any_eq_true.mpr ⟨kv, hkv, hp⟩)
    rw [List.find?_append, hnone]
    simp

theorem valueAt_insertTool_ne (m : List (String × Tool)) (k a : String) (v : Tool)
    (h : a ≠ k) : valueAt (insertTool m k v) a = valueAt m a := by
  have hka : ¬(k = a) := fun hc => h hc.symm
  unfold insertTool valueAt
  by_cases hm : (m.any (fun kv => kv.1 == k)) = true
  · rw [if_pos hm, List.find?_map]
    have hpf : ((fun kv : String × Tool => kv.1 == a) ∘
        (fun kv => if kv.1 == k then (k, v) else kv)) = fun kv : String × Tool => kv.1 == a := by
      funext kv
      by_cases hkk : kv.1 = k
      · simp [Function.comp, hkk, hka]
      · simp [Function.comp, hkk]
    rw [hpf]
    cases hfind : m.find? (fun kv => kv.1 == a) with
    | none => rfl
    | some kv =>
      have hkva : kv.1 = a := by simpa using List.find?_some hfind
      have : ¬(kv.1 = k) := fun hc => h (hkva ▸ hc)
      simp [Option.map, this]
  · rw [if_neg hm, List.find?_append]
    rw [show List.find? (fun kv => kv.1 == a) [(k, v)] = none by simp [hka]]
    simp

theorem valueAt_insertAll_of_not_mem (ts : List Tool) (n : String)
    (h : ∀ q ∈ ts, q.name ≠ n) :
    ∀ m, valueAt (insertAll m ts) n = valueAt m n := by
  induction ts with
  | nil => intro m; rfl
  | cons t rest ih =>
    intro m
    have h1 : t.name ≠ n := h t (List.mem_cons_self t rest)
    have h2 : ∀ q ∈ rest, q.name ≠ n := fun q hq => h q (List.mem_cons_of_mem t hq)
    calc valueAt (insertAll (insertTool m t.name t) rest) n
        = valueAt (insertTool m t.name t) n := ih h2 _
      _ = valueAt m n := valueAt_insertTool_ne m t.name n t (fun hc => h1 hc.symm)

theorem valueAt_insertAll_of_mem (ts : List Tool) (n : String)
    (h : ∃ q ∈ ts, q.name = n) :
    ∀ m, ∃ v ∈ ts, v.name = n ∧ valueAt (insertAll m ts) n = some v := by
  induction ts with
  | nil => simp at h
  | cons t rest ih =>
    intro m
    by_cases hrest : ∃ q ∈ rest, q.name = n
    · obtain ⟨v, hv, hvn, hval⟩ := ih hrest (insertTool m t.name t)
      exact ⟨v, List.mem_cons_of_mem t hv, hvn, hval⟩
    · have htn : t.name = n := by
        obtain ⟨q, hq, hqn⟩ := h
        rcases List.mem_cons.mp hq with rfl | hq2
        · exact hqn
        · exact absurd ⟨q, hq2, hqn⟩ hrest
      refine ⟨t, List.mem_cons_self t rest, htn, ?_⟩
      have hnone : ∀ q ∈ rest, q.name ≠ n := by
        intro q hq hc
        exact hrest ⟨q, hq, hc⟩
      show valueAt (insertAll (insertTool m t.name t) rest) n = some t
      rw [valueAt_insertAll_of_not_mem rest n hnone _, ← htn]
      exact valueAt_insertTool_self m t.name t

theorem find?_of_mem_nodup (m : List (String × Tool)) (k : String) (t : Tool)
    (hn : (keys m).Nodup) (hm : (k, t) ∈ m) :
    m.find? (fun kv => kv.1 == k) = some (k, t) := by
  induction m with
  | nil => simp at hm
  | cons kv0 rest ih =>
    rcases List.mem_cons.mp hm with heq | hmem
    · rw [← heq]
      simp [List.find?_cons]
    · have hcons : (kv0.1 :: keys rest).Nodup := by simpa [keys] using hn
      have hk : k ∈ keys rest := by
        have : (k, t).1 ∈ keys rest := List.mem_map.mpr ⟨(k, t), hmem, rfl⟩
        simpa using this
      have hne : kv0.1 ≠ k := by
        intro hc
        exact (List.nodup_cons.mp hcons).1 (hc ▸ hk)
      rw [List.find?_cons, show (kv0.1 == k) = false by simpa using hne]
      exact ih ((List.nodup_cons.mp hcons).2) hmem

theorem valueAt_of_mem_values (m : List (String × Tool)) (t : Tool)
    (hn : (keys m).Nodup) (hk : NamesKeys m) (hm : t ∈ m.map Prod.snd) :
    valueAt m t.name = some t := by
  obtain ⟨kv, hkv, rfl⟩ := List.mem_map.mp hm
  have hname : kv.2.name = kv.1 := hk kv hkv
  unfold valueAt
  rw [hname, find?_of_mem_nodup m kv.1 kv.2 hn (by simpa using hkv)]
  rfl

theorem name_tagSource (s : String) (t : Tool) : (tagSource s t).name = t.name := rfl

theorem keys_append (m₁ m₂ : List (String × Tool)) :
    keys (m₁ ++ m₂) = keys m₁ ++ keys m₂ := by
  simp [keys]

theorem insertTool_of_not_mem (m : List (String × Tool)) (k : String) (v : Tool)
    (h : k ∉ keys m) : insertTool m k v = m ++ [(k, v)] := by
  unfold insertTool
  rw [if_neg (by simpa using fun hc => h ((any_key_iff m k).mp hc))]

/-- Inserting a run of fresh, pairwise-distinct keys appends the run. -/
theorem insertAll_of_fresh (ts : List Tool) :
    ∀ m, (∀ t ∈ ts, t.name ∉ keys m) → (ts.map Tool.name).Nodup →
    insertAll m ts = m ++ ts.map (fun t => (t.name, t)) := by
  induction ts with
  | nil => intro m _ _; simp [insertAll]
  | cons t rest ih =>
    intro m hfresh hnd
    have h1 : t.name ∉ keys m := hfresh t (List.mem_cons_self t rest)
    have hins : insertTool m t.name t = m ++ [(t.name, t)] := insertTool_of_not_mem m t.name t h1
    have hnd2 : (t.name :: rest.map Tool.name).Nodup := by simpa using hnd
    show insertAll (insertTool m t.name t) rest = m ++ (t :: rest).map (fun t => (t.name, t))
    rw [hins, ih (m ++ [(t.name, t)]) ?_ (List.nodup_cons.mp hnd2).2]
    · simp
    · intro q hq
      rw [keys_append]
      intro hc
      rcases List.mem_append.mp hc with hc | hc
      · exact hfresh q (List.mem_cons_of_mem t hq) hc
      · have hqt : q.name = t.name := by simpa [keys] using hc
        exact (List.nodup_cons.mp hnd2).1 (hqt ▸ List.mem_map.mpr ⟨q, hq, rfl⟩)

/-- Overwriting one entry of a Python dict, described once and for all:
entries keep their positions (an existing key is updated in place), fresh
keys go to the back in order. -/
def overwriteBy (ps : List Tool) (kv : String × Tool) : String × Tool :=
  match ps.find? (fun p => p.name == kv.1) with
  | some p => (kv.1, p)
  | none => kv

theorem insertAll_overwrite (ps : List Tool) :
    ∀ m, (ps.map Tool.name).Nodup →
    insertAll m ps =
      m.map (overwriteBy ps) ++
      (ps.filter (fun p => !(m.any (fun kv => kv.1 == p.name)))).map (fun p => (p.name, p)) := by
  induction ps with
  | nil =>
    intro m _
    show m = m.map (overwriteBy []) ++ []
    simp only [List.append_nil]
    refine (List.map_congr_left ?_).symm.trans m.map_id |>.symm
    intro kv _
    rfl
  | cons p rest ih =>
    intro m hnd
    have hnd2 : (p.name :: rest.map Tool.name).Nodup := by simpa using hnd
    have hndr : (rest.map Tool.name).Nodup := (List.nodup_cons.mp hnd2).2
    have hpn : p.name ∉ rest.map Tool.name := (List.nodup_cons.mp hnd2).1
    have hfind_rest : rest.find? (fun q => q.name == p.name) = none := by
      rw [List.find?_eq_none]
      intro q hq hc
      have hqp : q.name = p.name := by simpa using hc
      exact hpn (hqp ▸ List.mem_map.mpr ⟨q, hq, rfl⟩)
    show insertAll (insertTool m p.name p) rest = _
    rw [ih (insertTool m p.name p) hndr]
    by_cases hmem : p.name ∈ keys m
    · -- overwrite in place: positions and keys are unchanged
      have hany : (m.any (fun kv => kv.1 == p.name)) = true := (any_key_iff m p.name).mpr hmem
      have hit : insertTool m p.name p =
          m.map (fun kv => if kv.1 == p.name then (p.name, p) else kv) := by
        unfold insertTool
        rw [if_pos hany]
      congr 1
      · rw [hit, List.map_map]
        refine List.map_congr_left ?_
        intro kv _
        by_cases hk : kv.1 = p.name
        · have h1 : (kv.1 == p.name) = true := by simpa using hk
          show overwriteBy rest (if (kv.1 == p.name) = true then (p.name, p) else kv) =
            overwriteBy (p :: rest) kv
          rw [if_pos h1]
          unfold overwriteBy
          rw [hfind_rest, List.find?_cons]
          simp [hk]
        · have h1 : (kv.1 == p.name) = false := by simpa using hk
          show overwriteBy rest (if (kv.1 == p.name) = true then (p.name, p) else kv) =
            overwriteBy (p :: rest) kv
          rw [if_neg (by simp [h1])]
          unfold overwriteBy
          rw [List.find?_cons]
          rw [show (p.name == kv.1) = false by simpa using fun hc : p.name = kv.1 => hk hc.symm]
      · have hkeys : ∀ a, a ∈ keys (insertTool m p.name p) ↔ a ∈ keys m := by
          intro a
          rw [keys_insertTool_of_mem m p.name p hmem]
        rw [show (p :: rest).filter (fun q => !(m.any (fun kv => kv.1 == q.name))) =
            rest.filter (fun q => !(m.any (fun kv => kv.1 == q.name))) by
          rw [List.filter_cons]
          simp [hany]]
        congr 1
        refine List.filter_congr ?_
        intro q _
        have : ((insertTool m p.name p).any (fun kv => kv.1 == q.name)) =
            (m.any (fun kv => kv.1 == q.name)) := by
          by_cases hq : q.name ∈ keys m
          · rw [(any_key_iff _ _).mpr ((hkeys q.name).mpr hq), (any_key_iff _ _).mpr hq]
          · have h1 : ((insertTool m p.name p).any (fun kv => kv.1 == q.name)) = false := by
              rw [← Bool.not_eq_true]
              exact fun hc => hq ((hkeys q.name).mp ((any_key_iff _ _).mp hc))
            have h2 : (m.any (fun kv => kv.1 == q.name)) = false := by
              rw [← Bool.not_eq_true]
              exact fun hc => hq ((any_key_iff _ _).mp hc)
            rw [h1, h2]
        rw [this]
    · -- fresh key: appended at the back
      have hit : insertTool m p.name p = m ++ [(p.name, p)] :=
        insertTool_of_not_mem m p.name p hmem
      have hmap : m.map (overwriteBy rest) = m.map (overwriteBy (p :: rest)) := by
        refine List.map_congr_left ?_
        intro kv hkv
        have hk : kv.1 ≠ p.name := by
          intro hc
          exact hmem (hc ▸ List.mem_map.mpr ⟨kv, hkv, rfl⟩)
        unfold overwriteBy
        rw [List.find?_cons]
        rw [show (p.name == kv.1) = false by simpa using fun hc : p.name = kv.1 => hk hc.symm]
      have howp : overwriteBy rest (p.name, p) = (p.name, p) := by
        unfold overwriteBy
        rw [hfind_rest]
      have hanyp : (m.any (fun kv => kv.1 == p.name)) = false := by
        rw [← Bool.not_eq_true]
        exact fun hc => hmem ((any_key_iff m p.name).mp hc)
      have hfilter : rest.filter (fun q => !((m ++ [(p.name, p)]).any (fun kv => kv.1 == q.name)))
          = rest.filter (fun q => !(m.any (fun kv => kv.1 == q.name))) := by
        refine List.filter_congr ?_
        intro q hq
        have hqp : (p.name == q.name) = false := by
          simp only [beq_eq_false_iff_ne, ne_eq]
          intro hc
          exact hpn (hc ▸ List.mem_map.mpr ⟨q, hq, rfl⟩)
        rw [List.any_append]
        simp [hqp]
      rw [hit, List.map_append, hmap, hfilter]
      rw [show (p :: rest).filter (fun q => !(m.any (fun kv => kv.1 == q.name))) =
          p :: rest.filter (fun q => !(m.any (fun kv => kv.1 == q.name))) by
        rw [List.filter_cons]
        simp [hanyp]]
      simp only [List.map_cons, List.map_nil, List.append_assoc, List.singleton_append, howp]

/-! ### The spec's worked example and the spec-side scoring formulas -/

/-- `fs-tool` of the spec's §8 example catalog (`mcprank_score` 0.8). -/
def fsTool : Tool := ⟨"fs-tool", "reads files from disk", ["filesystem", "io"], 4 / 5, none⟩

/-- `web-tool` of the spec's §8 example catalog (`mcprank_score` 0.1). -/
def webTool : Tool := ⟨"web-tool", "fetches web pages", ["http", "web"], 1 / 10, none⟩

/-- The spec's two-tool example catalog. -/
def exampleCatalog : List Tool := [fsTool, webTool]

/-- The `/recommend` scoring formula as the spec words it: a sum of four
independent terms. -/
def relevance_spec (query : String) (mcp : Tool) : ℚ :=
  (if pyIn (pyLower query) (pyLower mcp.description) then 3 else 0) +
  (if (pySplitWs (pyLower (String.intercalate " " mcp.tags))).any
      (fun tag => pyIn tag (pyLower query)) then 2 else 0) +
  (if pyIn mcp.name query then 5 else 0) +
  mcp.mcprank_score * 5

/-- The pre-filter scoring formula as the spec words it. -/
def quick_relevance_spec (task : String) (tool : Tool) : ℚ :=
  (if pyIn (pyLower task) (pyLower tool.description) then 2 else 0) +
  (if (pySplitWs (pyLower (String.intercalate " " tool.tags))).any
      (fun tag => pyIn tag (pyLower task)) then 1 else 0) +
  tool.mcprank_score * 2

theorem relevance_eq_spec (query : String) (mcp : Tool) :
    relevance query mcp = relevance_spec query mcp := by
  unfold relevance relevance_spec
  split_ifs <;> simp_all

theorem quick_relevance_eq_spec (task : String) (tool : Tool) :
    quick_relevance task tool = quick_relevance_spec task tool := by
  unfold quick_relevance quick_relevance_spec
  split_ifs <;> simp_all

theorem any_map_general {α β : Type} (f : α → β) (l : List α) (p : β → Bool) :
    (l.map f).any p = l.any (p ∘ f) := by
  induction l with
  | nil => rfl
  | cons a as ih => simp [ih, Function.comp]

theorem namesKeys_nil : NamesKeys [] := fun kv hkv => absurd hkv (List.not_mem_nil kv)

theorem nodup_keys_nil : (keys ([] : List (String × Tool))).Nodup := List.nodup_nil

/-! ### Claim theorems -/

/-- C2: the `/recommend` relevance score is the sum of the four spec terms
(+3 lowered-query-in-description, +2 tag-token-in-lowered-query, +5
original-case name-in-query, plus `mcprank_score * 5`), and on the spec's
two-tool example `recommend(query="read files", top_k=1)` returns
`fs-tool` first with score 4.0 against `web-tool`'s 0.5. -/
theorem recommend_score_formula_and_example :
    (∀ query mcp, relevance query mcp = relevance_spec query mcp) ∧
    recommend_mcp "read files" 1 exampleCatalog = [fsTool] ∧
    relevance "read files" fsTool = 4 ∧
    relevance "read files" webTool = 1 / 2 :=
  ⟨relevance_eq_spec, by decide, by decide, by decide⟩

/-- C9: a tool whose `name` is missing (modelled, as `dict.get` does, by
the empty string) always passes the `+5` name test, since the empty string
occurs in every query; its score is the remaining terms plus 5. -/
theorem missing_name_always_gets_name_bonus (query : String) (mcp : Tool)
    (h : mcp.name = "") :
    pyIn mcp.name query = true ∧
    relevance query mcp =
      (if pyIn (pyLower query) (pyLower mcp.description) then 3 else 0) +
      (if (pySplitWs (pyLower (String.intercalate " " mcp.tags))).any
          (fun tag => pyIn tag (pyLower query)) then 2 else 0) +
      5 + mcp.mcprank_score * 5 := by
  have h5 : pyIn mcp.name query = true := by
    rw [h]
    exact pyIn_empty_left query
  refine ⟨h5, ?_⟩
  rw [relevance_eq_spec]
  unfold relevance_spec
  rw [if_pos h5]

/-- Witness for C9 at a concrete nameless tool and query. -/
theorem missing_name_always_gets_name_bonus_witness :
    pyIn (Tool.name ⟨"", "reads", [], 0, none⟩) "abc" = true ∧
    relevance "abc" ⟨"", "reads", [], 0, none⟩ =
      (if pyIn (pyLower "abc") (pyLower (Tool.description ⟨"", "reads", [], 0, none⟩))
        then 3 else 0) +
      (if (pySplitWs (pyLower (String.intercalate " "
            (Tool.tags ⟨"", "reads", [], 0, none⟩)))).any
          (fun tag => pyIn tag (pyLower "abc")) then 2 else 0) +
      5 + (Tool.mcprank_score ⟨"", "reads", [], 0, none⟩) * 5 :=
  missing_name_always_gets_name_bonus "abc" ⟨"", "reads", [], 0, none⟩ rfl

/-- C8: `/list_tools` over the three proxy outcomes — a 200 body is
returned unchanged, a non-200 response becomes an error message holding
both the status code and the body text, an exception becomes an error
holding its string representation; in every case a value is returned
(the handler never raises). -/
theorem list_tools_error_contract :
    (∀ body, fetch_mcp_tools (.ok200 body) = .payload body) ∧
    (∀ code text, fetch_mcp_tools (.badStatus code text) =
        .error ("Proxy returned " ++ toString code ++ ": " ++ text) ∧
      pyIn (toString code) ("Proxy returned " ++ toString code ++ ": " ++ text) = true ∧
      pyIn text ("Proxy returned " ++ toString code ++ ": " ++ text) = true) ∧
    (∀ msg, fetch_mcp_tools (.exc msg) = .error msg) := by
  refine ⟨fun _ => rfl, fun code text => ⟨rfl, ?_, ?_⟩, fun _ => rfl⟩
  · have h := pyIn_of_concat (toString code) "Proxy returned " (": " ++ text)
    rwa [← String.append_assoc] at h
  · have h := pyIn_of_concat text ("Proxy returned " ++ toString code ++ ": ") ""
    rw [String.append_empty] at h
    simpa [String.append_assoc] using h

/-- C6: for every task and every aggregated catalog (static merged with
any proxy outcome), the LLM pre-filter keeps at most 25 tools, all drawn
from the aggregated catalog, sorted most-relevant-first by
`quick_relevance`, and that score is the spec's two-term formula. -/
theorem prefilter_top25_contract (task : String) (static : List Tool) (proxy : ProxyResult) :
    (filtered_tools task (get_all_mcp_sources static proxy).2).length ≤ 25 ∧
    (∀ t ∈ filtered_tools task (get_all_mcp_sources static proxy).2,
      t ∈ (get_all_mcp_sources static proxy).2) ∧
    (filtered_tools task (get_all_mcp_sources static proxy).2).Pairwise
      (fun a b => quick_relevance task b ≤ quick_relevance task a) ∧
    (∀ tool, quick_relevance task tool = quick_relevance_spec task tool) := by
  refine ⟨List.length_take_le _ _, ?_, ?_, quick_relevance_eq_spec task⟩
  · intro t ht
    have h1 : t ∈ (pySortDesc (quick_relevance task) (get_all_mcp_sources static proxy).2).map
        Prod.snd := (List.take_sublist _ _).subset ht
    have h2 := ((perm_pySortDesc (quick_relevance task)
      (get_all_mcp_sources static proxy).2).map Prod.snd).mem_iff.mp h1
    rwa [map_snd_withIdx] at h2
  · refine List.Pairwise.sublist (List.take_sublist _ _) ?_
    have h := sorted_pySortDesc (quick_relevance task) (get_all_mcp_sources static proxy).2
    rw [List.pairwise_map]
    refine h.imp ?_
    intro a b hab
    rcases hab with h1 | ⟨h1, _⟩
    · exact le_of_lt h1
    · exact le_of_eq h1.symm

/-- C1 counterexample: for K = -1 on the two-tool example catalog the
handler returns 1 entry (Python's `l[:-1]` drops only the last element),
which is not at most min(-1, |C|) = -1; the claim's bound fails for
negative K. -/
theorem recommend_topk_counterexample :
    ¬ (((recommend_mcp "read files" (-1) exampleCatalog).length : ℤ) ≤
        min (-1) (exampleCatalog.length : ℤ)) := by decide

/-- C1 (amended): for every non-negative K the `/recommend` handler
returns exactly `min(K, |C|)` entries — the first `K` of the ranked list —
sorted descending by `relevance` with ties kept in original catalog order;
K defaults to 5.  (For negative K Python's slice returns the first
`max(|C|+K, 0)` entries instead, as the counterexample shows.) -/
theorem recommend_topk_contract (query : String) (catalog : List Tool) (K : ℤ)
    (hK : 0 ≤ K) :
    recommend_mcp query K catalog = (rankedList query catalog).take K.toNat ∧
    (recommend_mcp query K catalog).length = min K.toNat catalog.length ∧
    (recommend_mcp query K catalog).Pairwise
      (fun a b => relevance query b ≤ relevance query a) ∧
    (pySortDesc (relevance query) catalog).Pairwise
      (fun a b => relevance query a.2 = relevance query b.2 → a.1 < b.1) ∧
    recommend_top_k_default = 5 := by
  have hslice : recommend_mcp query K catalog = (rankedList query catalog).take K.toNat := by
    unfold recommend_mcp pySliceTo
    rw [if_pos hK]
  have hlen : (rankedList query catalog).length = catalog.length := by
    unfold rankedList
    rw [List.length_map, length_pySortDesc]
  refine ⟨hslice, ?_, ?_, ?_, rfl⟩
  · rw [hslice, List.length_take, hlen]
  · rw [hslice]
    refine List.Pairwise.sublist (List.take_sublist _ _) ?_
    unfold rankedList
    rw [List.pairwise_map]
    refine (sorted_pySortDesc (relevance query) catalog).imp ?_
    intro a b hab
    rcases hab with h1 | ⟨h1, _⟩
    · exact le_of_lt h1
    · exact le_of_eq h1.symm
  · refine (pairwise_keyLT_pySortDesc (relevance query) catalog).imp ?_
    intro a b hab heq
    rcases hab with h1 | ⟨_, h2⟩
    · exact absurd (lt_of_lt_of_eq h1 heq) (lt_irrefl _)
    · exact h2

/-- Witness for C1's amended contract at K = 1 on the example catalog. -/
theorem recommend_topk_contract_witness :
    (0 : ℤ) ≤ 1 ∧
    (recommend_mcp "read files" 1 exampleCatalog =
        (rankedList "read files" exampleCatalog).take (Int.toNat 1) ∧
      (recommend_mcp "read files" 1 exampleCatalog).length =
        min (Int.toNat 1) exampleCatalog.length ∧
      (recommend_mcp "read files" 1 exampleCatalog).Pairwise
        (fun a b => relevance "read files" b ≤ relevance "read files" a) ∧
      (pySortDesc (relevance "read files") exampleCatalog).Pairwise
        (fun a b => relevance "read files" a.2 = relevance "read files" b.2 → a.1 < b.1) ∧
      recommend_top_k_default = 5) :=
  ⟨by decide, recommend_topk_contract "read files" exampleCatalog 1 (by decide)⟩

/-- C3 counterexample: handling a request that aggregates (as
`/recommend-ai` does) mutates the shared static catalog in place: an entry
stored without a `source` key has gained `source = "static"`. -/
theorem aggregator_mutates_catalog_counterexample :
    (get_all_mcp_sources [⟨"a", "", [], 0, none⟩] .failure).1 ≠
      [⟨"a", "", [], 0, none⟩] := by decide

/-- C3 (amended): the aggregator's only write to the shared static catalog
is setting each entry's `source` field to `"static"`: the catalog state
after a request is exactly the source-tagged catalog, every other field of
every entry is unchanged, and the write is idempotent (a second request
leaves the state fixed). -/
theorem aggregator_writes_only_source_tag (static : List Tool) (proxy : ProxyResult) :
    (get_all_mcp_sources static proxy).1 = static.map (tagSource "static") ∧
    (∀ t ∈ static, (tagSource "static" t).name = t.name ∧
      (tagSource "static" t).description = t.description ∧
      (tagSource "static" t).tags = t.tags ∧
      (tagSource "static" t).mcprank_score = t.mcprank_score ∧
      (tagSource "static" t).source = some "static") ∧
    (get_all_mcp_sources (get_all_mcp_sources static proxy).1 proxy).1 =
      (get_all_mcp_sources static proxy).1 := by
  have h1 : ∀ s : List Tool, ∀ pr : ProxyResult,
      (get_all_mcp_sources s pr).1 = s.map (tagSource "static") := by
    intro s pr
    cases pr <;> rfl
  refine ⟨h1 static proxy, fun t _ => ⟨rfl, rfl, rfl, rfl, rfl⟩, ?_⟩
  rw [h1 static proxy, h1 (static.map (tagSource "static")) proxy, List.map_map]
  exact List.map_congr_left (fun t _ => rfl)

/-- C4 counterexample: for a static catalog holding two entries with the
same name, a failed proxy fetch returns a single merged entry (the dict
collapses the duplicate key), not "exactly the static catalog". -/
theorem proxy_failure_dup_name_counterexample :
    (get_all_mcp_sources [⟨"a", "", [], 0, none⟩, ⟨"a", "b", [], 0, none⟩] .failure).2 ≠
      [⟨"a", "", [], 0, none⟩, ⟨"a", "b", [], 0, none⟩].map (tagSource "static") := by decide

/-- C4 (amended): when the static entries carry pairwise-distinct names —
duplicate names are collapsed by the name-keyed dict, as the
counterexample shows — any proxy failure makes the aggregator return
exactly the static catalog, every entry tagged `source = "static"`; the
model is a total function, so no exception escapes. -/
theorem proxy_failure_returns_static (static : List Tool)
    (h : (static.map Tool.name).Nodup) :
    (get_all_mcp_sources static .failure).2 = static.map (tagSource "static") ∧
    ∀ t ∈ (get_all_mcp_sources static .failure).2, t.source = some "static" := by
  have hnames : ((static.map (tagSource "static")).map Tool.name).Nodup := by
    rw [List.map_map]
    exact (List.map_congr_left (fun t _ => rfl) : _ = static.map Tool.name) ▸ h
  have hmain : (get_all_mcp_sources static .failure).2 = static.map (tagSource "static") := by
    show (insertAll [] (static.map (tagSource "static"))).map Prod.snd = _
    rw [insertAll_of_fresh _ [] (by simp [keys]) hnames, List.nil_append, List.map_map]
    exact (List.map_congr_left (fun t _ => rfl)).trans (List.map_id _)
  refine ⟨hmain, ?_⟩
  rw [hmain]
  intro t ht
  obtain ⟨t0, _, rfl⟩ := List.mem_map.mp ht
  rfl

/-- Witness for C4's amended contract on the example catalog. -/
theorem proxy_failure_returns_static_witness :
    ((exampleCatalog.map Tool.name).Nodup) ∧
    ((get_all_mcp_sources exampleCatalog .failure).2 =
        exampleCatalog.map (tagSource "static") ∧
      ∀ t ∈ (get_all_mcp_sources exampleCatalog .failure).2, t.source = some "static") :=
  ⟨by decide, proxy_failure_returns_static exampleCatalog (by decide)⟩

/-- C5: when a successfully fetched proxy list carries an entry whose name
collides with a static entry's, the merged catalog holds exactly one entry
of that name and it is tagged `source = "proxy"` (last writer wins); and —
for any proxy outcome — every name occurs at most once in the merged
output. -/
theorem name_collision_proxy_wins (static proxyList : List Tool) (n : String)
    (hs : ∃ t ∈ static, t.name = n) (hp : ∃ q ∈ proxyList, q.name = n) :
    (∀ pr : ProxyResult, (((get_all_mcp_sources static pr).2).map Tool.name).Nodup) ∧
    (get_all_mcp_sources static (.ok proxyList)).2.countP (fun t => t.name == n) = 1 ∧
    (∀ t ∈ (get_all_mcp_sources static (.ok proxyList)).2, t.name = n →
      t.source = some "proxy") := by
  clear hs
  have hkeyed0 : NamesKeys (insertAll [] (static.map (tagSource "static"))) :=
    namesKeys_insertAll _ _ namesKeys_nil
  have hnodup0 : (keys (insertAll [] (static.map (tagSource "static")))).Nodup :=
    nodup_keys_insertAll _ _ nodup_keys_nil
  have hkeyed1 : NamesKeys (insertAll (insertAll [] (static.map (tagSource "static")))
      (proxyList.map (tagSource "proxy"))) := namesKeys_insertAll _ _ hkeyed0
  have hnodup1 : (keys (insertAll (insertAll [] (static.map (tagSource "static")))
      (proxyList.map (tagSource "proxy")))).Nodup := nodup_keys_insertAll _ _ hnodup0
  obtain ⟨q, hq, hqn⟩ := hp
  have hqmem : tagSource "proxy" q ∈ proxyList.map (tagSource "proxy") :=
    List.mem_map.mpr ⟨q, hq, rfl⟩
  have hnmem : n ∈ keys (insertAll (insertAll [] (static.map (tagSource "static")))
      (proxyList.map (tagSource "proxy"))) := by
    have h := mem_keys_insertAll_of_mem (proxyList.map (tagSource "proxy"))
      (tagSource "proxy" q) hqmem (insertAll [] (static.map (tagSource "static")))
    rwa [name_tagSource, hqn] at h
  refine ⟨?_, ?_, ?_⟩
  · intro pr
    cases pr with
    | failure =>
      show (((insertAll [] (static.map (tagSource "static"))).map Prod.snd).map
        Tool.name).Nodup
      rw [names_values_eq_keys _ hkeyed0]
      exact hnodup0
    | ok ps =>
      show (((insertAll (insertAll [] (static.map (tagSource "static")))
          (ps.map (tagSource "proxy"))).map Prod.snd).map Tool.name).Nodup
      rw [names_values_eq_keys _ (namesKeys_insertAll _ _ hkeyed0)]
      exact nodup_keys_insertAll _ _ hnodup0
  · show ((insertAll (insertAll [] (static.map (tagSource "static")))
        (proxyList.map (tagSource "proxy"))).map Prod.snd).countP
      (fun t => t.name == n) = 1
    rw [show (fun t : Tool => t.name == n) = ((fun s : String => s == n) ∘ Tool.name)
      from rfl]
    rw [← List.countP_map, names_values_eq_keys _ hkeyed1, ← List.count_eq_countP]
    exact List.count_eq_one_of_mem hnodup1 hnmem
  · intro t ht htn
    have ht2 : t ∈ (insertAll (insertAll [] (static.map (tagSource "static")))
        (proxyList.map (tagSource "proxy"))).map Prod.snd := ht
    have hval_t := valueAt_of_mem_values _ t hnodup1 hkeyed1 ht2
    obtain ⟨v, hv, hvn, hval_v⟩ := valueAt_insertAll_of_mem
      (proxyList.map (tagSource "proxy")) n
      ⟨tagSource "proxy" q, hqmem, by rw [name_tagSource]; exact hqn⟩
      (insertAll [] (static.map (tagSource "static")))
    rw [htn] at hval_t
    have htv : t = v := by
      rw [hval_t] at hval_v
      exact Option.some.inj hval_v
    obtain ⟨q0, _, hq0⟩ := List.mem_map.mp hv
    rw [htv, ← hq0]
    rfl

/-- Witness for C5 at a one-entry static catalog and a colliding one-entry
proxy list. -/
theorem name_collision_proxy_wins_witness :
    (∃ t ∈ [fsTool], Tool.name t = "fs-tool") ∧
    (∃ q ∈ [(⟨"fs-tool", "updated", [], 0, none⟩ : Tool)], Tool.name q = "fs-tool") ∧
    ((∀ pr : ProxyResult, (((get_all_mcp_sources [fsTool] pr).2).map Tool.name).Nodup) ∧
      (get_all_mcp_sources [fsTool]
        (.ok [(⟨"fs-tool", "updated", [], 0, none⟩ : Tool)])).2.countP
          (fun t => t.name == "fs-tool") = 1 ∧
      (∀ t ∈ (get_all_mcp_sources [fsTool]
          (.ok [(⟨"fs-tool", "updated", [], 0, none⟩ : Tool)])).2,
        t.name = "fs-tool" → t.source = some "proxy")) :=
  ⟨by decide, by decide,
    name_collision_proxy_wins [fsTool] [⟨"fs-tool", "updated", [], 0, none⟩] "fs-tool"
      (by decide) (by decide)⟩

/-- C10: with pairwise-distinct names on each side, a proxy entry that
overwrites a static entry of the same name stays at the static entry's
original position in the merged sequence, and only proxy entries with new
names are appended at the end, in proxy order. -/
theorem merge_preserves_insertion_order (static proxyList : List Tool)
    (hs : (static.map Tool.name).Nodup) (hp : (proxyList.map Tool.name).Nodup) :
    (get_all_mcp_sources static (.ok proxyList)).2 =
      static.map (fun t =>
        match proxyList.find? (fun q => q.name == t.name) with
        | some q => tagSource "proxy" q
        | none => tagSource "static" t) ++
      (proxyList.filter (fun q => !(static.any (fun t => t.name == q.name)))).map
        (tagSource "proxy") := by
  have hstn : ((static.map (tagSource "static")).map Tool.name).Nodup := by
    rw [List.map_map]
    exact (List.map_congr_left (fun t _ => rfl) : _ = static.map Tool.name) ▸ hs
  have hptn : ((proxyList.map (tagSource "proxy")).map Tool.name).Nodup := by
    rw [List.map_map]
    exact (List.map_congr_left (fun t _ => rfl) : _ = proxyList.map Tool.name) ▸ hp
  have hm0 : insertAll [] (static.map (tagSource "static")) =
      (static.map (tagSource "static")).map (fun t => (t.name, t)) := by
    rw [insertAll_of_fresh _ [] (by simp [keys]) hstn, List.nil_append]
  show (insertAll (insertAll [] (static.map (tagSource "static")))
      (proxyList.map (tagSource "proxy"))).map Prod.snd = _
  rw [hm0, insertAll_overwrite _ _ hptn, List.map_append]
  congr 1
  · rw [List.map_map, List.map_map, List.map_map]
    refine List.map_congr_left ?_
    intro t _
    show Prod.snd (overwriteBy (proxyList.map (tagSource "proxy"))
        ((tagSource "static" t).name, tagSource "static" t)) = _
    unfold overwriteBy
    rw [List.find?_map]
    rw [show ((fun p : Tool =>
        p.name == ((tagSource "static" t).name, tagSource "static" t).1) ∘
        tagSource "proxy") = (fun q : Tool => q.name == t.name) from rfl]
    cases hfind : proxyList.find? (fun q => q.name == t.name) with
    | none => simp [hfind]
    | some q => simp [hfind]
  · rw [List.filter_map, List.map_map, List.map_map]
    have hcomp : ((Prod.snd ∘ fun p : Tool => (p.name, p)) ∘ tagSource "proxy") =
        tagSource "proxy" := by
      funext q
      rfl
    rw [hcomp]
    congr 1
    refine List.filter_congr ?_
    intro q _
    show (!(((static.map (tagSource "static")).map (fun t => (t.name, t))).any
        (fun kv => kv.1 == (tagSource "proxy" q).name))) =
      (!(static.any (fun t => t.name == q.name)))
    rw [any_map_general, any_map_general]
    rfl

/-- Witness for C10: one colliding name and one fresh proxy name. -/
theorem merge_preserves_insertion_order_witness :
    (([fsTool, webTool].map Tool.name).Nodup) ∧
    (([(⟨"web-tool", "new", [], 0, none⟩ : Tool),
        (⟨"extra-tool", "", [], 0, none⟩ : Tool)].map Tool.name).Nodup) ∧
    ((get_all_mcp_sources [fsTool, webTool]
        (.ok [(⟨"web-tool", "new", [], 0, none⟩ : Tool),
          (⟨"extra-tool", "", [], 0, none⟩ : Tool)])).2 =
      [fsTool, webTool].map (fun t =>
        match [(⟨"web-tool", "new", [], 0, none⟩ : Tool),
            (⟨"extra-tool", "", [], 0, none⟩ : Tool)].find?
            (fun q => q.name == t.name) with
        | some q => tagSource "proxy" q
        | none => tagSource "static" t) ++
      ([(⟨"web-tool", "new", [], 0, none⟩ : Tool),
          (⟨"extra-tool", "", [], 0, none⟩ : Tool)].filter
          (fun q => !([fsTool, webTool].any (fun t => t.name == q.name)))).map
        (tagSource "proxy")) :=
  ⟨by decide, by decide,
    merge_preserves_insertion_order [fsTool, webTool]
      [⟨"web-tool", "new", [], 0, none⟩, ⟨"extra-tool", "", [], 0, none⟩]
      (by decide) (by decide)⟩

theorem relevance_mono_rank (query : String) (d : Tool) (r2 : ℚ)
    (hr : d.mcprank_score ≤ r2) :
    relevance query d ≤ relevance query { d with mcprank_score := r2 } := by
  unfold relevance
  dsimp only
  split_ifs <;> linarith

/-- C7: raising a descriptor's `mcprank_score`, everything else (query,
its other fields, all other entries) fixed, never lowers its `/recommend`
relevance score, and never moves it behind an unchanged entry that it
preceded in the ranked output. -/
theorem mcprank_monotone (query : String) (catalog : List Tool) (i : ℕ) (r2 : ℚ)
    (hi : i < catalog.length)
    (hr : (catalog.get ⟨i, hi⟩).mcprank_score ≤ r2) :
    relevance query (catalog.get ⟨i, hi⟩) ≤
      relevance query { catalog.get ⟨i, hi⟩ with mcprank_score := r2 } ∧
    (∀ j, ∀ hj : j < catalog.length, j ≠ i →
      Precedes (pySortDesc (relevance query) catalog)
        (i, catalog.get ⟨i, hi⟩) (j, catalog.get ⟨j, hj⟩) →
      Precedes (pySortDesc (relevance query)
          (catalog.set i { catalog.get ⟨i, hi⟩ with mcprank_score := r2 }))
        (i, { catalog.get ⟨i, hi⟩ with mcprank_score := r2 })
        (j, catalog.get ⟨j, hj⟩)) := by
  have hmono := relevance_mono_rank query (catalog.get ⟨i, hi⟩) r2 hr
  refine ⟨hmono, ?_⟩
  intro j hj hji hprec
  have hlt_old : keyLT (relevance query)
      (i, catalog.get ⟨i, hi⟩) (j, catalog.get ⟨j, hj⟩) :=
    keyLT_of_precedes _ _ (pairwise_keyLT_pySortDesc _ _) _ _ hprec
  have hlt_new : keyLT (relevance query)
      (i, { catalog.get ⟨i, hi⟩ with mcprank_score := r2 }) (j, catalog.get ⟨j, hj⟩) := by
    rcases hlt_old with h1 | ⟨h1, h2⟩
    · exact Or.inl (lt_of_lt_of_le h1 hmono)
    · have he_le : relevance query (catalog.get ⟨j, hj⟩) ≤
          relevance query { catalog.get ⟨i, hi⟩ with mcprank_score := r2 } := h1 ▸ hmono
      rcases lt_or_eq_of_le he_le with h3 | h3
      · exact Or.inl h3
      · exact Or.inr ⟨h3.symm, h2⟩
  have hi2 : i < (catalog.set i { catalog.get ⟨i, hi⟩ with mcprank_score := r2 }).length := by
    rw [List.length_set]
    exact hi
  have hj2 : j < (catalog.set i { catalog.get ⟨i, hi⟩ with mcprank_score := r2 }).length := by
    rw [List.length_set]
    exact hj
  have hmem_i : (i, { catalog.get ⟨i, hi⟩ with mcprank_score := r2 }) ∈
      pySortDesc (relevance query)
        (catalog.set i { catalog.get ⟨i, hi⟩ with mcprank_score := r2 }) := by
    refine (perm_pySortDesc _ _).mem_iff.mpr ?_
    have hgi : (catalog.set i { catalog.get ⟨i, hi⟩ with mcprank_score := r2 }).get
        ⟨i, hi2⟩ = { catalog.get ⟨i, hi⟩ with mcprank_score := r2 } := by
      simp only [List.get_eq_getElem]
      exact List.getElem_set_self _
    have h := mem_withIdx_of_get
      (catalog.set i { catalog.get ⟨i, hi⟩ with mcprank_score := r2 }) i hi2
    rwa [hgi] at h
  have hmem_j : (j, catalog.get ⟨j, hj⟩) ∈
      pySortDesc (relevance query)
        (catalog.set i { catalog.get ⟨i, hi⟩ with mcprank_score := r2 }) := by
    refine (perm_pySortDesc _ _).mem_iff.mpr ?_
    have hgj : (catalog.set i { catalog.get ⟨i, hi⟩ with mcprank_score := r2 }).get
        ⟨j, hj2⟩ = catalog.get ⟨j, hj⟩ := by
      simp only [List.get_eq_getElem]
      exact List.getElem_set_ne (fun hc => hji hc.symm) _
    have h := mem_withIdx_of_get
      (catalog.set i { catalog.get ⟨i, hi⟩ with mcprank_score := r2 }) j hj2
    rwa [hgj] at h
  exact precedes_of_keyLT _ _ (sorted_pySortDesc _ _) _ _ hmem_i hmem_j hlt_new

/-- Witness for C7: raising `web-tool`'s rank score to 2 on the example
catalog. -/
theorem mcprank_monotone_witness :
    relevance "q" (exampleCatalog.get ⟨1, by decide⟩) ≤
      relevance "q" { exampleCatalog.get ⟨1, by decide⟩ with mcprank_score := 2 } ∧
    (∀ j, ∀ hj : j < exampleCatalog.length, j ≠ 1 →
      Precedes (pySortDesc (relevance "q") exampleCatalog)
        (1, exampleCatalog.get ⟨1, by decide⟩) (j, exampleCatalog.get ⟨j, hj⟩) →
      Precedes (pySortDesc (relevance "q")
          (exampleCatalog.set 1
            { exampleCatalog.get ⟨1, by decide⟩ with mcprank_score := 2 }))
        (1, { exampleCatalog.get ⟨1, by decide⟩ with mcprank_score := 2 })
        (j, exampleCatalog.get ⟨j, hj⟩)) :=
  mcprank_monotone "q" exampleCatalog 1 2 (by decide) (by decide)

end McpSearch
